import Mathlib

/-!
Shallow embedding of the keycheck-go validator registry
(`validatorsmap.go` and the current `keychain.go`): an ordered
label-to-predicate store (`validatorsMap`, a dense entry slice plus a
`map[string]int` position index) and the combinator engine (`keyChain`)
with its four evaluation algorithms (NOT, AND, OR, XOR) and the
32-element inline error buffer of `validateOR` / `validateXOR`.

Go predicates `func(a T) (bool, error)` are modelled as
`T → Bool × Option ε` (a `none` second component is a nil error); a nil
Go function pointer is an `Option` of such a function.  `map[string]int`
is modelled as an association list with first-match lookup,
replace-or-append insert and key removal, matching Go map semantics for
the operations the source performs (the index map is never iterated).
Machine integers that matter here (`int` slice indices, counters) stay
within `Nat` range, so `Nat` is used directly.  Nil receivers are a Go
pointer artefact outside the state space modelled here; all methods are
taken on a (non-nil) `keyChain` value, i.e. the `kc == nil` guard
branches are not part of the state being verified.
-/

namespace Keycheck

/-- `Status` from keychain.go: identifier plus free-text detail.
The Go zero value `Status{}` is `⟨"", ""⟩`. -/
structure Status where
  id : String
  details : String
deriving DecidableEq, Repr

/-- The Go `BitwiseID` is a `uint8`; its four defined values follow. -/
abbrev BitwiseID := Nat

/-- `NOT BitwiseID = iota` -/
def NOT : BitwiseID := 0
/-- `AND` -/
def AND : BitwiseID := 1
/-- `OR` -/
def OR : BitwiseID := 2
/-- `XOR` -/
def XOR : BitwiseID := 3

/-- `func (bid BitwiseID) IsValid() bool { return bid <= XOR }` -/
def IsValid (bid : BitwiseID) : Bool := bid ≤ XOR

/-- The engine-level error values of keychain.go
(`ErrInvalidBitwiseID`, `ErrNoValidatorExist`, `ErrNilReceiver`). -/
inductive KCErr where
  | invalidBitwiseID (id : Nat)
  | noValidatorExist
  | nilReceiver
deriving DecidableEq, Repr

/-- `validatorEntry[T]` from validatorsmap.go: identifier, status and
(optionally nil) predicate. -/
structure VEntry (T ε : Type) where
  id : String
  status : Status
  validator : Option (T → Bool × Option ε)

/-- The Go zero value `validatorEntry[T]{}`. -/
def VEntry.zero (T ε : Type) : VEntry T ε := ⟨"", ⟨"", ""⟩, none⟩

/-- First-match lookup in the association-list model of `map[string]int`. -/
def mapLookup : List (String × Nat) → String → Option Nat
  | [], _ => none
  | (k', v) :: rest, k => if k' = k then some v else mapLookup rest k

/-- Go map assignment `m[k] = v`: replace the value of an existing key,
otherwise add the binding. -/
def mapInsert : List (String × Nat) → String → Nat → List (String × Nat)
  | [], k, v => [(k, v)]
  | (k', v') :: rest, k, v =>
    if k' = k then (k', v) :: rest else (k', v') :: mapInsert rest k v

/-- Go `delete(m, k)`. -/
def mapErase (m : List (String × Nat)) (k : String) : List (String × Nat) :=
  m.filter (fun p => p.1 ≠ k)

/-- `validatorsMap[T]` from validatorsmap.go: the dense ordered entry
slice and the identifier-to-position index.  A `none` index models the
nil Go map of the zero value `validatorsMap[T]{}`. -/
structure ValidatorsMap (T ε : Type) where
  entries : List (VEntry T ε)
  index : Option (List (String × Nat))

/-- `validatorsMap.Get`: nil index or absent key give the zero result
with `found = false`; otherwise the entry at the indexed position.
(The Go code indexes `vm.entries[i]` directly; under the registry
invariant the position is always in range, and `getD` with the zero
entry renders the same total function on those states.) -/
def ValidatorsMap.Get (vm : ValidatorsMap T ε) (id : String) :
    Status × Option (T → Bool × Option ε) × Bool :=
  match vm.index with
  | none => (⟨"", ""⟩, none, false)
  | some idx =>
    match mapLookup idx id with
    | none => (⟨"", ""⟩, none, false)
    | some i =>
      ((vm.entries.getD i (VEntry.zero T ε)).status,
        (vm.entries.getD i (VEntry.zero T ε)).validator, true)

/-- `validatorsMap.Set`: initialise a nil index, then overwrite the
entry in place when the identifier is present, else append the entry
and record its position. -/
def ValidatorsMap.Set (vm : ValidatorsMap T ε) (status : Status)
    (fn : Option (T → Bool × Option ε)) : ValidatorsMap T ε :=
  match mapLookup (vm.index.getD []) status.id with
  | some i =>
    { entries := vm.entries.set i ⟨status.id, status, fn⟩,
      index := some (vm.index.getD []) }
  | none =>
    { entries := vm.entries ++ [⟨status.id, status, fn⟩],
      index := some (mapInsert (vm.index.getD []) status.id vm.entries.length) }

/-- The reindexing loop at the end of `validatorsMap.Del`:
`for j := i; j < len(vm.entries); j++ { vm.index[vm.entries[j].id] = j }`. -/
def reindexFrom (idx : List (String × Nat)) (entries : List (VEntry T ε))
    (i : Nat) : List (String × Nat) :=
  if h : i < entries.length then
    reindexFrom (mapInsert idx (entries.get ⟨i, h⟩).id i) entries (i + 1)
  else idx
termination_by entries.length - i

/-- `validatorsMap.Del`: nil index or absent key is a no-op returning
`false`; otherwise delete the index binding, shift-erase the entry at
its position (`copy` over it and truncate, i.e. `List.eraseIdx`), and
reindex the shifted suffix. -/
def ValidatorsMap.Del (vm : ValidatorsMap T ε) (id : String) :
    ValidatorsMap T ε × Bool :=
  match vm.index with
  | none => (vm, false)
  | some idx =>
    match mapLookup idx id with
    | none => (vm, false)
    | some i =>
      let idx1 := mapErase idx id
      let entries1 := vm.entries.eraseIdx i
      (⟨entries1, some (reindexFrom idx1 entries1 i)⟩, true)

/-- `keyChain[T]` from keychain.go. -/
structure keyChain (T ε : Type) where
  validators : ValidatorsMap T ε
  condition : BitwiseID

/-- `NewKeyChain`: reject an invalid operator, otherwise a fresh engine
with an empty entry slice and an initialised (non-nil, empty) index map. -/
def NewKeyChain (T ε : Type) (condition : BitwiseID) :
    Except KCErr (keyChain T ε) :=
  if IsValid condition then .ok ⟨⟨[], some []⟩, condition⟩
  else .error (.invalidBitwiseID condition)

/-- The state `NewKeyChain` constructs for a given operator. -/
def freshKC (T ε : Type) (condition : BitwiseID) : keyChain T ε :=
  ⟨⟨[], some []⟩, condition⟩

/-- `keyChain.DelValidator` (on a non-nil receiver): error when the
index map is nil, otherwise delegate to `validatorsMap.Del`. -/
def keyChain.DelValidator (kc : keyChain T ε) (label : String) :
    keyChain T ε × Option KCErr :=
  match kc.validators.index with
  | none => (kc, some .noValidatorExist)
  | some _ => ({ kc with validators := (kc.validators.Del label).1 }, none)

/-- `keyChain.GetValidator` (on a non-nil receiver): error when the
index map is nil, otherwise the registry lookup with a nil error, the
found flag being dropped. -/
def keyChain.GetValidator (kc : keyChain T ε) (id : String) :
    Status × Option (T → Bool × Option ε) × Option KCErr :=
  match kc.validators.index with
  | none => (⟨"", ""⟩, none, some .noValidatorExist)
  | some _ =>
    ((kc.validators.Get id).1, (kc.validators.Get id).2.1, none)

/-- `keyChain.SetValidator` (on a non-nil receiver): a nil index map is
replaced by a fresh empty registry first, then `validatorsMap.Set`. -/
def keyChain.SetValidator (kc : keyChain T ε) (status : Status)
    (fn : Option (T → Bool × Option ε)) : keyChain T ε :=
  let vm := match kc.validators.index with
    | none => ({ entries := [], index := some [] } : ValidatorsMap T ε)
    | some _ => kc.validators
  { kc with validators := vm.Set status fn }

/-- `keyChain.SetCondition` (on a non-nil receiver). -/
def keyChain.SetCondition (kc : keyChain T ε) (condition : BitwiseID) :
    keyChain T ε × Option KCErr :=
  if IsValid condition then ({ kc with condition := condition }, none)
  else (kc, some (.invalidBitwiseID condition))

/-- `keyChain.Reset`: zero the operator and the whole `validatorsMap`,
leaving the index map nil. -/
def keyChain.Reset (_kc : keyChain T ε) : keyChain T ε :=
  ⟨⟨[], none⟩, 0⟩

/-- The value a `Validate` call returns in place of a `StatusGetter`
interface value: the caller-supplied `defaultStatus` argument, a
`&entry.status` pointer into the registry, or the package-level
`emptyStatus` (`&Status{}`). -/
inductive StatusRef where
  | defaultS
  | entry (s : Status)
  | empty
deriving DecidableEq, Repr

/-- The NOT branch of `keyChain.Validate`: skip nil predicates, record
the status of each false predicate as the running label (errors are
never collected on this path), fail with the default status on the
first true; when the loop ends with no label recorded, `emptyStatus`. -/
def notLoop (data : T) : List (VEntry T ε) → Option Status →
    StatusRef × Bool × List ε
  | [], lbl =>
    match lbl with
    | none => (.empty, true, [])
    | some s => (.entry s, true, [])
  | e :: rest, lbl =>
    match e.validator with
    | none => notLoop data rest lbl
    | some fn =>
      match fn data with
      | (false, _) => notLoop data rest (some e.status)
      | (true, _) => (.defaultS, false, [])

/-- The AND branch of `keyChain.Validate`: skip nil predicates, fail at
the first false returning its error (if non-nil) as the whole error
list, otherwise carry the label of the last true predicate and the last
`ok` flag (initially `false`, so an engine that evaluates nothing
reports `(emptyStatus, false, nil)`). -/
def andLoop (data : T) : List (VEntry T ε) → StatusRef → Bool →
    StatusRef × Bool × List ε
  | [], lbl, ok => (lbl, ok, [])
  | e :: rest, lbl, ok =>
    match e.validator with
    | none => andLoop data rest lbl ok
    | some fn =>
      match fn data with
      | (true, _) => andLoop data rest (.entry e.status) true
      | (false, some er) => (.defaultS, false, [er])
      | (false, none) => (.defaultS, false, [])

/-- The error accumulator shared by `validateOR` and `validateXOR`:
`bufErrs [32]error` (of which only the written prefix
`bufErrs[0:errCount]` is observable, modelled as the list `buf`),
the spilled `heapErrs` slice, `errCount` and `usedHeap`. -/
structure ErrAcc (ε : Type) where
  buf : List ε
  heap : List ε
  errCount : Nat
  usedHeap : Bool

/-- The accumulator at loop entry: empty buffer, no spill. -/
def accInit (ε : Type) : ErrAcc ε := ⟨[], [], 0, false⟩

/-- One non-nil error being recorded: write the next buffer slot while
`!usedHeap && errCount < len(bufErrs)`, otherwise spill (copying
`bufErrs[:errCount]` into a fresh slice on the first spill) and append. -/
def accPush (acc : ErrAcc ε) (e : ε) : ErrAcc ε :=
  if acc.usedHeap = false ∧ acc.errCount < 32 then
    { acc with buf := acc.buf ++ [e], errCount := acc.errCount + 1 }
  else
    { acc with
      heap := (if acc.usedHeap then acc.heap else acc.buf.take acc.errCount) ++ [e],
      usedHeap := true, errCount := acc.errCount + 1 }

/-- The error list the tails of `validateOR` / `validateXOR` return:
nil when no error was recorded, the heap slice after a spill, otherwise
a copy of `bufErrs[:errCount]`. -/
def accErrs (acc : ErrAcc ε) : List ε :=
  if acc.errCount = 0 then []
  else if acc.usedHeap then acc.heap
  else acc.buf.take acc.errCount

/-- The loop of `keyChain.validateOR`: skip nil predicates, succeed
immediately with the entry's status on the first true, record non-nil
errors of false predicates, and fail with the default status and the
accumulated errors when the entries are exhausted. -/
def orLoop (data : T) : List (VEntry T ε) → ErrAcc ε →
    StatusRef × Bool × List ε
  | [], acc => (.defaultS, false, accErrs acc)
  | e :: rest, acc =>
    match e.validator with
    | none => orLoop data rest acc
    | some fn =>
      match fn data with
      | (true, _) => (.entry e.status, true, [])
      | (false, some er) => orLoop data rest (accPush acc er)
      | (false, none) => orLoop data rest acc

/-- `keyChain.validateOR`. -/
def keyChain.validateOR (kc : keyChain T ε) (data : T) :
    StatusRef × Bool × List ε :=
  orLoop data kc.validators.entries (accInit ε)

/-- The loop of `keyChain.validateXOR`: skip nil predicates, count
trues and keep the last true entry's status as the candidate label,
abort with the default status and **no** errors the moment the count
exceeds one, record non-nil errors of false predicates; at the end
succeed with the candidate exactly when one true was seen, otherwise
fail with the accumulated errors. -/
def xorLoop (data : T) : List (VEntry T ε) → ErrAcc ε → Nat → StatusRef →
    StatusRef × Bool × List ε
  | [], acc, trueCount, lbl =>
    if trueCount = 1 then (lbl, true, [])
    else (.defaultS, false, accErrs acc)
  | e :: rest, acc, trueCount, lbl =>
    match e.validator with
    | none => xorLoop data rest acc trueCount lbl
    | some fn =>
      match fn data with
      | (true, _) =>
        if trueCount + 1 > 1 then (.defaultS, false, [])
        else xorLoop data rest acc (trueCount + 1) (.entry e.status)
      | (false, some er) => xorLoop data rest (accPush acc er) trueCount lbl
      | (false, none) => xorLoop data rest acc trueCount lbl

/-- `keyChain.validateXOR`. -/
def keyChain.validateXOR (kc : keyChain T ε) (data : T) :
    StatusRef × Bool × List ε :=
  xorLoop data kc.validators.entries (accInit ε) 0 .empty

/-- `keyChain.Validate` (on a non-nil receiver): a nil index map makes
every operator return `(defaultStatus, false, nil)` at once; otherwise
dispatch on the condition, any value outside the four operators falling
through to `(defaultStatus, false, nil)`. -/
def keyChain.Validate (kc : keyChain T ε) (data : T) :
    StatusRef × Bool × List ε :=
  match kc.validators.index with
  | none => (.defaultS, false, [])
  | some _ =>
    if kc.condition = NOT then notLoop data kc.validators.entries none
    else if kc.condition = AND then andLoop data kc.validators.entries .empty false
    else if kc.condition = OR then kc.validateOR data
    else if kc.condition = XOR then kc.validateXOR data
    else (.defaultS, false, [])

/-! Specification-side descriptions of the evaluation pass, written
from the spec's wording, to be compared against the loops above. -/

/-- Status of the first evaluated predicate (nil predicates skipped)
returning true, if any. -/
def specFirstTrue (data : T) : List (VEntry T ε) → Option Status
  | [] => none
  | e :: rest =>
    match e.validator with
    | none => specFirstTrue data rest
    | some fn =>
      if (fn data).1 then some e.status else specFirstTrue data rest

/-- Statuses of all evaluated predicates returning true, in evaluation
(insertion) order. -/
def specTrueStatuses (data : T) : List (VEntry T ε) → List Status
  | [] => []
  | e :: rest =>
    match e.validator with
    | none => specTrueStatuses data rest
    | some fn =>
      if (fn data).1 then e.status :: specTrueStatuses data rest
      else specTrueStatuses data rest

/-- Naive one-by-one collection of the non-nil errors of the evaluated
predicates that return false, in evaluation (insertion) order. -/
def specFalseErrs (data : T) : List (VEntry T ε) → List ε
  | [] => []
  | e :: rest =>
    match e.validator with
    | none => specFalseErrs data rest
    | some fn =>
      match fn data with
      | (true, _) => specFalseErrs data rest
      | (false, some er) => er :: specFalseErrs data rest
      | (false, none) => specFalseErrs data rest

/-- Status of the last entry whose predicate is evaluated (non-nil),
if any: under an all-false pass this is "the label of the last
predicate evaluated". -/
def specLastEval : List (VEntry T ε) → Option Status
  | [] => none
  | e :: rest =>
    match specLastEval rest with
    | some s => some s
    | none => if e.validator.isSome then some e.status else none

/-- The accumulator `acc` represents the plain error list `l`. -/
def AccRep (acc : ErrAcc ε) (l : List ε) : Prop :=
  acc.errCount = l.length ∧
  (acc.usedHeap = true → acc.heap = l) ∧
  (acc.usedHeap = false → acc.buf = l ∧ l.length ≤ 32)

/-- The registry's entry identifiers are pairwise distinct. -/
def NodupIds (entries : List (VEntry T ε)) : Prop :=
  (entries.map VEntry.id).Nodup

/-- The index maps an identifier to a position exactly when the entry
at that position carries the identifier. -/
def IndexCorrect (idx : List (String × Nat)) (entries : List (VEntry T ε)) :
    Prop :=
  ∀ k n, mapLookup idx k = some n ↔
    (entries.get? n).map VEntry.id = some k

/-- Well-formedness of a registry state: the (possibly nil, then empty)
index is correct for the entry slice, identifiers are unique, and a nil
index only occurs with no entries.  All states reachable through the
API satisfy this. -/
def vmWF (vm : ValidatorsMap T ε) : Prop :=
  IndexCorrect (vm.index.getD []) vm.entries ∧ NodupIds vm.entries ∧
    (vm.index = none → vm.entries = [])

/-! Concrete registry states used by witness theorems. -/

def sA : Status := ⟨"A", ""⟩
def sB : Status := ⟨"B", ""⟩
def sC : Status := ⟨"C", ""⟩

def entFalse1 : VEntry Nat Nat := ⟨"A", sA, some (fun _ => (false, some 1))⟩
def entTrueB : VEntry Nat Nat := ⟨"B", sB, some (fun _ => (true, none))⟩
def entFalse2 : VEntry Nat Nat := ⟨"C", sC, some (fun _ => (false, some 2))⟩
def entTrueC : VEntry Nat Nat := ⟨"C", sC, some (fun _ => (true, none))⟩
def entFalseA : VEntry Nat Nat := ⟨"A", sA, some (fun _ => (false, none))⟩
def entFalseB : VEntry Nat Nat := ⟨"B", sB, some (fun _ => (false, none))⟩

def idxABC : List (String × Nat) := [("A", 0), ("B", 1), ("C", 2)]
def idxAB : List (String × Nat) := [("A", 0), ("B", 1)]

def kcOrEx : keyChain Nat Nat := ⟨⟨[entFalse1, entTrueB, entFalse2], some idxABC⟩, OR⟩
def kcXorEx : keyChain Nat Nat := ⟨⟨[entFalse1, entTrueB, entTrueC], some idxABC⟩, XOR⟩
def kcNotEx : keyChain Nat Nat := ⟨⟨[entFalseA, entFalseB], some idxAB⟩, NOT⟩

/-- Forty always-failing validators, enough to cross the 32-slot inline
error buffer of `validateOR` / `validateXOR`. -/
def entries40 : List (VEntry Nat Nat) :=
  (List.range 40).map
    (fun k => ⟨toString k, ⟨toString k, ""⟩, some (fun _ => (false, some k))⟩)

def kc40 : keyChain Nat Nat := ⟨⟨entries40, some []⟩, OR⟩

def fnT : Option (Nat → Bool × Option Nat) := some (fun _ => (true, none))

/-- An initialised empty registry (the state `NewKeyChain` builds). -/
def vmEmptyNN : ValidatorsMap Nat Nat := ⟨[], some []⟩

/-- A one-entry registry. -/
def vmA : ValidatorsMap Nat Nat := ⟨[⟨"A", sA, none⟩], some [("A", 0)]⟩

/-- An engine emptied by deletion: one `SetValidator`, then
`DelValidator` of the only entry. -/
def kcDelEx : keyChain Nat Nat :=
  (((freshKC Nat Nat OR).SetValidator sA fnT).DelValidator "A").1

/-! Lemmas: the inline error buffer refines plain list appending. -/

theorem accRep_init : AccRep (accInit ε) [] := by
  refine ⟨rfl, ?_, ?_⟩
  · intro h
    simp [accInit] at h
  · intro _
    exact ⟨rfl, by simp⟩

theorem accRep_push {acc : ErrAcc ε} {l : List ε} (e : ε) (h : AccRep acc l) :
    AccRep (accPush acc e) (l ++ [e]) := by
  obtain ⟨hc, hh, hb⟩ := h
  unfold accPush
  by_cases hu : acc.usedHeap = false ∧ acc.errCount < 32
  · rw [if_pos hu]
    obtain ⟨hbuf, _⟩ := hb hu.1
    refine ⟨by simp [hc], ?_, ?_⟩
    · intro hcontra
      rw [hu.1] at hcontra
      cases hcontra
    · intro _
      refine ⟨by rw [hbuf], ?_⟩
      have h32 := hu.2
      rw [hc] at h32
      simp only [List.length_append, List.length_singleton]
      omega
  · rw [if_neg hu]
    refine ⟨by simp [hc], ?_, ?_⟩
    · intro _
      show (if acc.usedHeap = true then acc.heap else acc.buf.take acc.errCount) ++ [e] = l ++ [e]
      by_cases hu2 : acc.usedHeap = true
      · rw [if_pos hu2, hh hu2]
      · have hb2 := hb (by simpa using hu2)
        rw [if_neg hu2, hb2.1, hc, List.take_length]
    · intro hcontra
      simp at hcontra

theorem accErrs_of_rep {acc : ErrAcc ε} {l : List ε} (h : AccRep acc l) :
    accErrs acc = l := by
  obtain ⟨hc, hh, hb⟩ := h
  unfold accErrs
  by_cases h0 : acc.errCount = 0
  · rw [if_pos h0]
    rw [h0] at hc
    exact (List.length_eq_zero.mp hc.symm).symm
  · rw [if_neg h0]
    by_cases hu : acc.usedHeap
    · rw [if_pos hu]
      exact hh hu
    · rw [if_neg hu]
      obtain ⟨hbuf, _⟩ := hb (by simpa using hu)
      rw [hbuf, hc, List.take_length]

/-! Lemmas: loop characterizations against the spec-side functions. -/

theorem orLoop_spec (data : T) (entries : List (VEntry T ε)) :
    ∀ (acc : ErrAcc ε) (l : List ε), AccRep acc l →
      orLoop data entries acc =
        match specFirstTrue data entries with
        | some s => (.entry s, true, [])
        | none => (.defaultS, false, l ++ specFalseErrs data entries) := by
  induction entries with
  | nil =>
    intro acc l h
    simp [orLoop, specFirstTrue, specFalseErrs, accErrs_of_rep h]
  | cons e rest ih =>
    intro acc l h
    cases hv : e.validator with
    | none =>
      simp only [orLoop, hv, ih acc l h]
      cases hft : specFirstTrue data rest <;>
        simp [specFirstTrue, specFalseErrs, hv, hft]
    | some fn =>
      rcases hfd : fn data with ⟨ok, err⟩
      cases ok with
      | true =>
        simp only [orLoop, hv, hfd]
        simp [specFirstTrue, hv, hfd]
      | false =>
        cases err with
        | none =>
          simp only [orLoop, hv, hfd, ih acc l h]
          cases hft : specFirstTrue data rest <;>
            simp [specFirstTrue, specFalseErrs, hv, hfd, hft]
        | some er =>
          simp only [orLoop, hv, hfd,
            ih (accPush acc er) (l ++ [er]) (accRep_push er h)]
          cases hft : specFirstTrue data rest <;>
            simp [specFirstTrue, specFalseErrs, hv, hfd, hft]

theorem xorLoop_one (data : T) (entries : List (VEntry T ε)) :
    ∀ (acc : ErrAcc ε) (lbl : StatusRef),
      xorLoop data entries acc 1 lbl =
        if specTrueStatuses data entries = [] then (lbl, true, [])
        else (.defaultS, false, []) := by
  induction entries with
  | nil =>
    intro acc lbl
    simp [xorLoop, specTrueStatuses]
  | cons e rest ih =>
    intro acc lbl
    cases hv : e.validator with
    | none =>
      simp only [xorLoop, hv, ih]
      simp [specTrueStatuses, hv]
    | some fn =>
      rcases hfd : fn data with ⟨ok, err⟩
      cases ok with
      | true =>
        simp only [xorLoop, hv, hfd]
        simp [specTrueStatuses, hv, hfd]
      | false =>
        cases err with
        | none =>
          simp only [xorLoop, hv, hfd, ih]
          simp [specTrueStatuses, hv, hfd]
        | some er =>
          simp only [xorLoop, hv, hfd, ih]
          simp [specTrueStatuses, hv, hfd]

theorem xorLoop_zero (data : T) (entries : List (VEntry T ε)) :
    ∀ (acc : ErrAcc ε) (l : List ε) (lbl : StatusRef), AccRep acc l →
      xorLoop data entries acc 0 lbl =
        match specTrueStatuses data entries with
        | [] => (.defaultS, false, l ++ specFalseErrs data entries)
        | [s] => (.entry s, true, [])
        | _ :: _ :: _ => (.defaultS, false, []) := by
  induction entries with
  | nil =>
    intro acc l lbl h
    simp [xorLoop, specTrueStatuses, specFalseErrs, accErrs_of_rep h]
  | cons e rest ih =>
    intro acc l lbl h
    cases hv : e.validator with
    | none =>
      simp only [xorLoop, hv, ih acc l lbl h]
      cases hts : specTrueStatuses data rest <;>
        simp [specTrueStatuses, specFalseErrs, hv, hts]
    | some fn =>
      rcases hfd : fn data with ⟨ok, err⟩
      cases ok with
      | true =>
        simp only [xorLoop, hv, hfd]
        rw [if_neg (by omega)]
        rw [xorLoop_one data rest]
        cases hts : specTrueStatuses data rest <;>
          simp [specTrueStatuses, hv, hfd, hts]
      | false =>
        cases err with
        | none =>
          simp only [xorLoop, hv, hfd, ih acc l lbl h]
          cases hts : specTrueStatuses data rest <;>
            simp [specTrueStatuses, specFalseErrs, hv, hfd, hts]
        | some er =>
          simp only [xorLoop, hv, hfd,
            ih (accPush acc er) (l ++ [er]) lbl (accRep_push er h)]
          cases hts : specTrueStatuses data rest <;>
            simp [specTrueStatuses, specFalseErrs, hv, hfd, hts]

theorem notLoop_spec (data : T) (entries : List (VEntry T ε)) :
    ∀ lbl : Option Status,
      notLoop data entries lbl =
        match specFirstTrue data entries with
        | some _ => (.defaultS, false, [])
        | none =>
          match specLastEval entries with
          | some s => (.entry s, true, [])
          | none =>
            match lbl with
            | some s => (.entry s, true, [])
            | none => (.empty, true, []) := by
  induction entries with
  | nil =>
    intro lbl
    cases lbl <;> simp [notLoop, specFirstTrue, specLastEval]
  | cons e rest ih =>
    intro lbl
    cases hv : e.validator with
    | none =>
      simp only [notLoop, hv, ih lbl]
      cases hft : specFirstTrue data rest <;>
        cases hle : specLastEval rest <;>
          simp [specFirstTrue, specLastEval, hv, hft, hle]
    | some fn =>
      rcases hfd : fn data with ⟨ok, err⟩
      cases ok with
      | true =>
        simp only [notLoop, hv, hfd]
        simp [specFirstTrue, hv, hfd]
      | false =>
        simp only [notLoop, hv, hfd, ih (some e.status)]
        cases hft : specFirstTrue data rest <;>
          cases hle : specLastEval rest <;>
            simp [specFirstTrue, specLastEval, hv, hfd, hft, hle]

/-! Append lemmas for the spec-side functions (used to state that a
short-circuit leaves every later entry unexamined). -/

theorem specFirstTrue_append (data : T) (l1 l2 : List (VEntry T ε)) :
    specFirstTrue data (l1 ++ l2) =
      match specFirstTrue data l1 with
      | some s => some s
      | none => specFirstTrue data l2 := by
  induction l1 with
  | nil => simp [specFirstTrue]
  | cons e rest ih =>
    cases hv : e.validator with
    | none => simpa [specFirstTrue, hv] using ih
    | some fn =>
      by_cases hfd : (fn data).1 = true <;>
        simp [specFirstTrue, hv, hfd, ih]

theorem specTrueStatuses_append (data : T) (l1 l2 : List (VEntry T ε)) :
    specTrueStatuses data (l1 ++ l2) =
      specTrueStatuses data l1 ++ specTrueStatuses data l2 := by
  induction l1 with
  | nil => simp [specTrueStatuses]
  | cons e rest ih =>
    cases hv : e.validator with
    | none => simpa [specTrueStatuses, hv] using ih
    | some fn =>
      by_cases hfd : (fn data).1 = true <;>
        simp [specTrueStatuses, hv, hfd, ih]

/-! Dispatch: `Validate` under a non-nil index map runs the branch of
the stored condition. -/

theorem Validate_not (kc : keyChain T ε) (data : T) (m : List (String × Nat))
    (hm : kc.validators.index = some m) (hc : kc.condition = NOT) :
    kc.Validate data = notLoop data kc.validators.entries none := by
  unfold keyChain.Validate
  rw [hm, hc]
  simp

theorem Validate_and (kc : keyChain T ε) (data : T) (m : List (String × Nat))
    (hm : kc.validators.index = some m) (hc : kc.condition = AND) :
    kc.Validate data = andLoop data kc.validators.entries .empty false := by
  unfold keyChain.Validate
  rw [hm, hc]
  simp [NOT, AND]

theorem Validate_or (kc : keyChain T ε) (data : T) (m : List (String × Nat))
    (hm : kc.validators.index = some m) (hc : kc.condition = OR) :
    kc.Validate data = kc.validateOR data := by
  unfold keyChain.Validate
  rw [hm, hc]
  simp [NOT, AND, OR]

theorem Validate_xor (kc : keyChain T ε) (data : T) (m : List (String × Nat))
    (hm : kc.validators.index = some m) (hc : kc.condition = XOR) :
    kc.Validate data = kc.validateXOR data := by
  unfold keyChain.Validate
  rw [hm, hc]
  simp [NOT, AND, OR, XOR]

theorem accRep_foldl (errs : List ε) :
    ∀ (acc : ErrAcc ε) (l : List ε), AccRep acc l →
      AccRep (errs.foldl accPush acc) (l ++ errs) := by
  induction errs with
  | nil =>
    intro acc l h
    simpa using h
  | cons e rest ih =>
    intro acc l h
    have h2 := ih (accPush acc e) (l ++ [e]) (accRep_push e h)
    simpa using h2

/-- C2: under the OR operator, `Validate` succeeds with the label of the
first evaluated predicate returning true (nil predicates skipped, no
errors surfaced), and otherwise fails with the default label and exactly
the non-nil errors of the failed predicates in insertion/evaluation
order. -/
theorem or_validate_first_true_else_all_errors (T ε : Type)
    (kc : keyChain T ε) (data : T) (m : List (String × Nat))
    (hm : kc.validators.index = some m) (hc : kc.condition = OR) :
    kc.Validate data =
      match specFirstTrue data kc.validators.entries with
      | some s => (.entry s, true, [])
      | none => (.defaultS, false, specFalseErrs data kc.validators.entries) := by
  rw [Validate_or kc data m hm hc]
  unfold keyChain.validateOR
  rw [orLoop_spec data kc.validators.entries (accInit ε) [] accRep_init]
  cases specFirstTrue data kc.validators.entries <;> simp

/-- C2 witness: on predicates [false(err=1), true, false(err=2)] under
OR the engine returns the second entry's label with no errors. -/
theorem or_validate_witness :
    kcOrEx.validators.index = some idxABC ∧ kcOrEx.condition = OR ∧
    kcOrEx.Validate 0 = (.entry sB, true, []) ∧
    kcOrEx.Validate 0 =
      match specFirstTrue 0 kcOrEx.validators.entries with
      | some s => (.entry s, true, [])
      | none => (.defaultS, false, specFalseErrs 0 kcOrEx.validators.entries) :=
  ⟨rfl, rfl, rfl,
    or_validate_first_true_else_all_errors Nat Nat kcOrEx 0 idxABC rfl rfl⟩

/-- C3: under the XOR operator, `Validate` succeeds with the label of
the unique true predicate when exactly one evaluated predicate returns
true, fails with the default label and all collected non-nil errors when
none does, and fails with the default label and **no** errors as soon as
a second true is seen — independently of every entry after the second
true. -/
theorem xor_validate_unique_true (T ε : Type) (kc : keyChain T ε)
    (data : T) (m : List (String × Nat))
    (hm : kc.validators.index = some m) (hc : kc.condition = XOR) :
    (kc.Validate data =
      match specTrueStatuses data kc.validators.entries with
      | [] => (.defaultS, false, specFalseErrs data kc.validators.entries)
      | [s] => (.entry s, true, [])
      | _ :: _ :: _ => (.defaultS, false, [])) ∧
    (∀ pre suf : List (VEntry T ε), kc.validators.entries = pre ++ suf →
      2 ≤ (specTrueStatuses data pre).length →
      kc.Validate data = (.defaultS, false, [])) := by
  have hmain : kc.Validate data =
      match specTrueStatuses data kc.validators.entries with
      | [] => (.defaultS, false, specFalseErrs data kc.validators.entries)
      | [s] => (.entry s, true, [])
      | _ :: _ :: _ => (.defaultS, false, []) := by
    rw [Validate_xor kc data m hm hc]
    unfold keyChain.validateXOR
    rw [xorLoop_zero data kc.validators.entries (accInit ε) [] .empty accRep_init]
    rcases specTrueStatuses data kc.validators.entries with _ | ⟨a, _ | ⟨b, r⟩⟩ <;> simp
  refine ⟨hmain, ?_⟩
  intro pre suf hsplit hlen
  rw [hmain, hsplit, specTrueStatuses_append]
  rcases hts : specTrueStatuses data pre with _ | ⟨a, _ | ⟨b, r⟩⟩
  · rw [hts] at hlen
    simp at hlen
  · rw [hts] at hlen
    simp at hlen
  · simp

/-- C3 witness: on predicates [false(err=1), true, true] under XOR the
engine fails with the default label and no errors, and the second-true
prefix alone already forces that outcome. -/
theorem xor_validate_witness :
    kcXorEx.validators.index = some idxABC ∧ kcXorEx.condition = XOR ∧
    kcXorEx.Validate 0 = (.defaultS, false, []) ∧
    (kcXorEx.Validate 0 =
      match specTrueStatuses 0 kcXorEx.validators.entries with
      | [] => (.defaultS, false, specFalseErrs 0 kcXorEx.validators.entries)
      | [s] => (.entry s, true, [])
      | _ :: _ :: _ => (.defaultS, false, [])) :=
  ⟨rfl, rfl, rfl,
    (xor_validate_unique_true Nat Nat kcXorEx 0 idxABC rfl rfl).1⟩

/-- C4: under the NOT operator, `Validate` succeeds with the label of
the last evaluated predicate when every evaluated predicate returns
false (the empty status when nothing is evaluated), and fails with the
default label and a nil error list as soon as some evaluated predicate
returns true — independently of every entry after the first true. -/
theorem not_validate_all_false (T ε : Type) (kc : keyChain T ε)
    (data : T) (m : List (String × Nat))
    (hm : kc.validators.index = some m) (hc : kc.condition = NOT) :
    (kc.Validate data =
      match specFirstTrue data kc.validators.entries with
      | some _ => (.defaultS, false, [])
      | none =>
        match specLastEval kc.validators.entries with
        | some s => (.entry s, true, [])
        | none => (.empty, true, [])) ∧
    (∀ pre suf : List (VEntry T ε), kc.validators.entries = pre ++ suf →
      (specFirstTrue data pre).isSome →
      kc.Validate data = (.defaultS, false, [])) := by
  have hmain : kc.Validate data =
      match specFirstTrue data kc.validators.entries with
      | some _ => (.defaultS, false, [])
      | none =>
        match specLastEval kc.validators.entries with
        | some s => (.entry s, true, [])
        | none => (.empty, true, []) := by
    rw [Validate_not kc data m hm hc, notLoop_spec data kc.validators.entries none]
  refine ⟨hmain, ?_⟩
  intro pre suf hsplit hft
  rw [hmain, hsplit, specFirstTrue_append]
  rcases hpre : specFirstTrue data pre with _ | s
  · rw [hpre] at hft
    simp at hft
  · simp

/-- C4 witness: on predicates [false, false] under NOT the engine
succeeds with the label of the last evaluated predicate and no errors. -/
theorem not_validate_witness :
    kcNotEx.validators.index = some idxAB ∧ kcNotEx.condition = NOT ∧
    kcNotEx.Validate 0 = (.entry sB, true, []) ∧
    (kcNotEx.Validate 0 =
      match specFirstTrue 0 kcNotEx.validators.entries with
      | some _ => (.defaultS, false, [])
      | none =>
        match specLastEval kcNotEx.validators.entries with
        | some s => (.entry s, true, [])
        | none => (.empty, true, [])) :=
  ⟨rfl, rfl, rfl,
    (not_validate_all_false Nat Nat kcNotEx 0 idxAB rfl rfl).1⟩

/-- C9: on the OR and XOR failure paths the error list returned through
the 32-slot inline buffer (with spill) equals the naive one-by-one
appending of the non-nil predicate errors, in evaluation order, for
every error count; in particular buffered pushing of any plain error
list reproduces that list exactly. -/
theorem buffered_errors_eq_naive_append (T ε : Type) (kc : keyChain T ε)
    (data : T) :
    (specFirstTrue data kc.validators.entries = none →
      (kc.validateOR data).2.2 = specFalseErrs data kc.validators.entries) ∧
    (specTrueStatuses data kc.validators.entries = [] →
      (kc.validateXOR data).2.2 = specFalseErrs data kc.validators.entries) ∧
    (∀ errs : List ε, accErrs (errs.foldl accPush (accInit ε)) = errs) := by
  refine ⟨?_, ?_, ?_⟩
  · intro hft
    unfold keyChain.validateOR
    rw [orLoop_spec data kc.validators.entries (accInit ε) [] accRep_init, hft]
    simp
  · intro hts
    unfold keyChain.validateXOR
    rw [xorLoop_zero data kc.validators.entries (accInit ε) [] .empty accRep_init,
      hts]
    simp
  · intro errs
    have h := accRep_foldl errs (accInit ε) [] accRep_init
    rw [accErrs_of_rep h]
    simp

/-- C9 witness: forty failing validators (crossing the 32-slot buffer)
yield exactly the forty errors in evaluation order. -/
theorem buffered_errors_witness :
    specFirstTrue 0 kc40.validators.entries = none ∧
    specTrueStatuses 0 kc40.validators.entries = [] ∧
    (kc40.validateOR 0).2.2 = List.range 40 ∧
    (kc40.validateOR 0).2.2 = specFalseErrs 0 kc40.validators.entries ∧
    (kc40.validateXOR 0).2.2 = specFalseErrs 0 kc40.validators.entries :=
  ⟨by decide, by decide, by decide,
    (buffered_errors_eq_naive_append Nat Nat kc40 0).1 (by decide),
    (buffered_errors_eq_naive_append Nat Nat kc40 0).2.1 (by decide)⟩

/-! Lemmas: the association-list model of the Go index map. -/

theorem mapLookup_insert_self (idx : List (String × Nat)) (k : String) (v : Nat) :
    mapLookup (mapInsert idx k v) k = some v := by
  induction idx with
  | nil => simp [mapInsert, mapLookup]
  | cons p rest ih =>
    obtain ⟨k', v'⟩ := p
    by_cases h : k' = k
    · simp [mapInsert, mapLookup, h]
    · simp [mapInsert, mapLookup, h, ih]

theorem mapLookup_insert_other (idx : List (String × Nat)) (k k' : String)
    (v : Nat) (h : k' ≠ k) :
    mapLookup (mapInsert idx k v) k' = mapLookup idx k' := by
  have h' : ¬k = k' := fun he => h he.symm
  induction idx with
  | nil => simp [mapInsert, mapLookup, h']
  | cons p rest ih =>
    obtain ⟨k0, v0⟩ := p
    by_cases h0 : k0 = k
    · subst h0
      simp [mapInsert, mapLookup, h']
    · by_cases h1 : k0 = k'
      · simp [mapInsert, h0, mapLookup, h1, h]
      · simp [mapInsert, h0, mapLookup, h1, ih]

theorem mapLookup_erase_self (idx : List (String × Nat)) (k : String) :
    mapLookup (mapErase idx k) k = none := by
  induction idx with
  | nil => simp [mapErase, mapLookup]
  | cons p rest ih =>
    obtain ⟨k0, v0⟩ := p
    by_cases h0 : k0 = k
    · simpa [mapErase, List.filter_cons, h0] using ih
    · simpa [mapErase, List.filter_cons, h0, mapLookup] using ih

theorem mapLookup_erase_other (idx : List (String × Nat)) (k k' : String)
    (h : k' ≠ k) :
    mapLookup (mapErase idx k) k' = mapLookup idx k' := by
  have hkk' : ¬k = k' := fun he => h he.symm
  induction idx with
  | nil => simp [mapErase, mapLookup]
  | cons p rest ih =>
    obtain ⟨k0, v0⟩ := p
    by_cases h0 : k0 = k
    · simpa [mapErase, List.filter_cons, h0, mapLookup, hkk'] using ih
    · by_cases h1 : k0 = k'
      · simp [mapErase, List.filter_cons, h0, mapLookup, h1, fun he : k' = k => h he]
      · simpa [mapErase, List.filter_cons, h0, mapLookup, h1] using ih

/-! Lemmas: positional facts about list surgery. -/

theorem get?_eraseIdx_lt (l : List α) :
    ∀ i m : Nat, m < i → (l.eraseIdx i).get? m = l.get? m := by
  induction l with
  | nil =>
    intro i m _
    simp [List.eraseIdx]
  | cons a l ih =>
    intro i m h
    cases i with
    | zero => omega
    | succ i =>
      cases m with
      | zero => simp [List.eraseIdx]
      | succ m => simpa [List.eraseIdx] using ih i m (by omega)

theorem get?_eraseIdx_ge (l : List α) :
    ∀ i m : Nat, i ≤ m → (l.eraseIdx i).get? m = l.get? (m + 1) := by
  induction l with
  | nil =>
    intro i m _
    simp [List.eraseIdx]
  | cons a l ih =>
    intro i m h
    cases i with
    | zero => simp [List.eraseIdx]
    | succ i =>
      cases m with
      | zero => omega
      | succ m => simpa [List.eraseIdx] using ih i m (by omega)

theorem set_get?_self (l : List α) :
    ∀ (i : Nat) (a : α), l.get? i = some a → l.set i a = l := by
  induction l with
  | nil =>
    intro i a h
    cases h
  | cons b l ih =>
    intro i a h
    cases i with
    | zero =>
      injection h with h
      rw [h]
      rfl
    | succ i =>
      show b :: l.set i a = b :: l
      rw [ih i a h]

theorem eraseIdx_append_cons (l1 : List α) (e : α) (l2 : List α) :
    (l1 ++ e :: l2).eraseIdx l1.length = l1 ++ l2 := by
  induction l1 with
  | nil => rfl
  | cons a l ih => simpa [List.eraseIdx] using ih

theorem get?_append_length (l1 : List α) (e : α) (l2 : List α) :
    (l1 ++ e :: l2).get? l1.length = some e := by
  rw [List.get?_append_right (Nat.le_refl _)]
  simp

theorem nodupIds_unique (entries : List (VEntry T ε)) (hnd : NodupIds entries)
    (m m' : Nat) (k : String)
    (hm : (entries.get? m).map VEntry.id = some k)
    (hm' : (entries.get? m').map VEntry.id = some k) : m = m' := by
  have h1 : (entries.map VEntry.id).get? m = some k := by
    rw [List.get?_map]
    exact hm
  have h2 : (entries.map VEntry.id).get? m' = some k := by
    rw [List.get?_map]
    exact hm'
  have hlt : m < (entries.map VEntry.id).length := by
    rw [List.get?_eq_some] at h1
    exact h1.1
  exact List.get?_inj hlt hnd (h1.trans h2.symm)

theorem nodupIds_eraseIdx (entries : List (VEntry T ε)) (i : Nat)
    (hnd : NodupIds entries) : NodupIds (entries.eraseIdx i) :=
  List.Nodup.sublist (List.Sublist.map _ (List.eraseIdx_sublist entries i)) hnd

/-! Lemmas: the reindexing loop of `Del`. -/

theorem reindex_lookup_notin (entries : List (VEntry T ε)) (k : String)
    (i : Nat) (idx : List (String × Nat))
    (hno : ∀ j (hj : j < entries.length), i ≤ j → (entries.get ⟨j, hj⟩).id ≠ k) :
    mapLookup (reindexFrom idx entries i) k = mapLookup idx k := by
  rw [reindexFrom]
  by_cases h : i < entries.length
  · rw [dif_pos h]
    rw [reindex_lookup_notin entries k (i + 1) _
      (fun j hj hij => hno j hj (by omega))]
    exact mapLookup_insert_other _ _ _ _ (Ne.symm (hno i h (Nat.le_refl i)))
  · rw [dif_neg h]
termination_by entries.length - i

theorem reindex_lookup_mem (entries : List (VEntry T ε))
    (hnd : NodupIds entries) (k : String) (j : Nat) (hj : j < entries.length)
    (hk : (entries.get ⟨j, hj⟩).id = k) :
    ∀ (i : Nat) (idx : List (String × Nat)), i ≤ j →
      mapLookup (reindexFrom idx entries i) k = some j := by
  intro i idx hij
  have hlt : i < entries.length := by omega
  rw [reindexFrom, dif_pos hlt]
  by_cases hcase : i = j
  · subst hcase
    rw [reindex_lookup_notin entries k (i + 1) _ ?later]
    · rw [hk]
      exact mapLookup_insert_self _ _ _
    case later =>
      intro j' hj' hij' he
      have hmj : (entries.get? j').map VEntry.id = some k := by
        rw [List.get?_eq_get hj']
        simpa using he
      have hmi : (entries.get? i).map VEntry.id = some k := by
        rw [List.get?_eq_get hlt]
        simpa using hk
      have : j' = i := nodupIds_unique entries hnd j' i k hmj hmi
      omega
  · exact reindex_lookup_mem entries hnd k j hj hk (i + 1) _ (by omega)
termination_by i => j - i

/-! Lemmas: the registry operations preserve well-formedness and have
the stated ordering behaviour. -/

theorem lookup_of_entry_at (idx : List (String × Nat))
    (entries : List (VEntry T ε)) (hic : IndexCorrect idx entries)
    (m : Nat) (k : String) (hm : (entries.get? m).map VEntry.id = some k) :
    mapLookup idx k = some m :=
  (hic k m).mpr hm

theorem lookup_none_of_absent (idx : List (String × Nat))
    (entries : List (VEntry T ε)) (hic : IndexCorrect idx entries)
    (k : String) (habs : ∀ e ∈ entries, e.id ≠ k) :
    mapLookup idx k = none := by
  cases hl : mapLookup idx k with
  | none => rfl
  | some m =>
    have hm := (hic k m).mp hl
    cases hme : entries.get? m with
    | none =>
      rw [hme] at hm
      cases hm
    | some e =>
      rw [hme] at hm
      have he : e ∈ entries := List.get?_mem hme
      have : e.id = k := by
        simpa using hm
      exact absurd this (habs e he)

theorem vmWF_mk (entries : List (VEntry T ε)) (idx : List (String × Nat))
    (hic : IndexCorrect idx entries) (hnd : NodupIds entries) :
    vmWF (⟨entries, some idx⟩ : ValidatorsMap T ε) := by
  refine ⟨?_, hnd, ?_⟩
  · simpa using hic
  · intro h
    cases h

theorem indexCorrect_append (idx : List (String × Nat))
    (entries : List (VEntry T ε)) (hic : IndexCorrect idx entries)
    (s : Status) (fn : Option (T → Bool × Option ε))
    (hl : mapLookup idx s.id = none) :
    IndexCorrect (mapInsert idx s.id entries.length)
      (entries ++ [⟨s.id, s, fn⟩]) := by
  intro k n
  by_cases hk : k = s.id
  · subst hk
    rw [mapLookup_insert_self]
    constructor
    · intro h2
      injection h2 with h2
      subst h2
      rw [get?_append_length]
      rfl
    · intro h2
      rcases Nat.lt_trichotomy n entries.length with hn | hn | hn
      · exfalso
        rw [List.get?_append hn] at h2
        have h3 := lookup_of_entry_at idx entries hic n _ h2
        rw [hl] at h3
        cases h3
      · rw [hn]
      · exfalso
        have hlen : (entries ++ [(⟨s.id, s, fn⟩ : VEntry T ε)]).length ≤ n := by
          simp only [List.length_append, List.length_singleton]
          omega
        rw [List.get?_eq_none.mpr hlen] at h2
        cases h2
  · rw [mapLookup_insert_other _ _ _ _ hk, hic k n]
    constructor
    · intro h2
      have hn : n < entries.length := by
        cases hme : entries.get? n with
        | none =>
          rw [hme] at h2
          cases h2
        | some e =>
          rw [List.get?_eq_some] at hme
          exact hme.1
      rw [List.get?_append hn]
      exact h2
    · intro h2
      rcases Nat.lt_trichotomy n entries.length with hn | hn | hn
      · rw [List.get?_append hn] at h2
        exact h2
      · exfalso
        subst hn
        rw [get?_append_length] at h2
        simp at h2
        exact hk h2.symm
      · exfalso
        have hlen : (entries ++ [(⟨s.id, s, fn⟩ : VEntry T ε)]).length ≤ n := by
          simp only [List.length_append, List.length_singleton]
          omega
        rw [List.get?_eq_none.mpr hlen] at h2
        cases h2

theorem nodupIds_append (entries : List (VEntry T ε)) (s : Status)
    (fn : Option (T → Bool × Option ε)) (hnd : NodupIds entries)
    (idx : List (String × Nat)) (hic : IndexCorrect idx entries)
    (hl : mapLookup idx s.id = none) :
    NodupIds (entries ++ [⟨s.id, s, fn⟩]) := by
  unfold NodupIds
  rw [List.map_append, List.nodup_append]
  refine ⟨hnd, by simp, ?_⟩
  intro a ha hb
  simp at hb
  subst hb
  obtain ⟨n, hn⟩ := List.mem_iff_get?.mp ha
  rw [List.get?_map] at hn
  have h3 := lookup_of_entry_at idx entries hic n _ hn
  rw [hl] at h3
  cases h3

theorem vmWF_set (vm : ValidatorsMap T ε) (s : Status)
    (fn : Option (T → Bool × Option ε)) (h : vmWF vm) : vmWF (vm.Set s fn) := by
  obtain ⟨hic, hnd, _⟩ := h
  unfold ValidatorsMap.Set
  cases hl : mapLookup (vm.index.getD []) s.id with
  | some i =>
    simp only [hl]
    have hm := (hic s.id i).mp hl
    have hids : (vm.entries.set i ⟨s.id, s, fn⟩).map VEntry.id =
        vm.entries.map VEntry.id := by
      rw [List.map_set]
      apply set_get?_self
      rw [List.get?_map]
      exact hm
    apply vmWF_mk
    · intro k n
      rw [hic k n]
      constructor
      · intro h2
        have h3 : ((vm.entries.set i ⟨s.id, s, fn⟩).map VEntry.id).get? n =
            some k := by
          rw [hids, List.get?_map]
          exact h2
        rw [List.get?_map] at h3
        exact h3
      · intro h2
        have h3 : ((vm.entries.set i ⟨s.id, s, fn⟩).map VEntry.id).get? n =
            some k := by
          rw [List.get?_map]
          exact h2
        rw [hids, List.get?_map] at h3
        exact h3
    · unfold NodupIds
      rw [hids]
      exact hnd
  | none =>
    simp only [hl]
    apply vmWF_mk
    · exact indexCorrect_append _ _ hic s fn hl
    · exact nodupIds_append _ s fn hnd _ hic hl

theorem set_then_get (vm : ValidatorsMap T ε) (s : Status)
    (fn : Option (T → Bool × Option ε)) (h : vmWF vm) :
    (vm.Set s fn).Get s.id = (s, fn, true) := by
  obtain ⟨hic, _, _⟩ := h
  unfold ValidatorsMap.Set
  cases hl : mapLookup (vm.index.getD []) s.id with
  | some i =>
    simp only [hl]
    unfold ValidatorsMap.Get
    have hm := (hic s.id i).mp hl
    have hilt : i < vm.entries.length := by
      cases hme : vm.entries.get? i with
      | none =>
        rw [hme] at hm
        cases hm
      | some e =>
        rw [List.get?_eq_some] at hme
        exact hme.1
    have hset : (vm.entries.set i ⟨s.id, s, fn⟩).get? i = some ⟨s.id, s, fn⟩ :=
      List.get?_set_eq_of_lt _ hilt
    have hgd : (vm.entries.set i ⟨s.id, s, fn⟩).getD i (VEntry.zero T ε) =
        ⟨s.id, s, fn⟩ := by
      show ((vm.entries.set i ⟨s.id, s, fn⟩).get? i).getD (VEntry.zero T ε) = _
      rw [hset]
      rfl
    simp only [hl, hgd]
  | none =>
    simp only [hl]
    unfold ValidatorsMap.Get
    have hgd : (vm.entries ++ [(⟨s.id, s, fn⟩ : VEntry T ε)]).getD
        vm.entries.length (VEntry.zero T ε) = ⟨s.id, s, fn⟩ := by
      show ((vm.entries ++ [(⟨s.id, s, fn⟩ : VEntry T ε)]).get?
        vm.entries.length).getD (VEntry.zero T ε) = _
      rw [get?_append_length]
      rfl
    simp only [mapLookup_insert_self, hgd]

theorem indexCorrect_del (idx : List (String × Nat))
    (entries : List (VEntry T ε)) (hic : IndexCorrect idx entries)
    (hnd : NodupIds entries) (id : String) (i : Nat)
    (hl : mapLookup idx id = some i) :
    IndexCorrect (reindexFrom (mapErase idx id) (entries.eraseIdx i) i)
      (entries.eraseIdx i) := by
  have hmi : (entries.get? i).map VEntry.id = some id := (hic id i).mp hl
  have hnd1 : NodupIds (entries.eraseIdx i) := nodupIds_eraseIdx entries i hnd
  intro k m
  by_cases hex : ∃ j, ∃ hj : j < (entries.eraseIdx i).length,
      i ≤ j ∧ ((entries.eraseIdx i).get ⟨j, hj⟩).id = k
  · obtain ⟨j, hj, hij, hkj⟩ := hex
    rw [reindex_lookup_mem (entries.eraseIdx i) hnd1 k j hj hkj i _ hij]
    have hjm : ((entries.eraseIdx i).get? j).map VEntry.id = some k := by
      rw [List.get?_eq_get hj]
      simpa using hkj
    constructor
    · intro h2
      injection h2 with h2
      subst h2
      exact hjm
    · intro h2
      have h4 := nodupIds_unique _ hnd1 m j k h2 hjm
      rw [h4]
  · push_neg at hex
    rw [reindex_lookup_notin _ k i _ (fun j hj hij => (hex j hj) hij)]
    by_cases hk : k = id
    · subst hk
      rw [mapLookup_erase_self]
      constructor
      · intro h2
        cases h2
      · intro h2
        exfalso
        rcases Nat.lt_or_ge m i with hm | hm
        · rw [get?_eraseIdx_lt entries i m hm] at h2
          have h3 := lookup_of_entry_at idx entries hic m _ h2
          rw [hl] at h3
          injection h3 with h3
          omega
        · have hmlt : m < (entries.eraseIdx i).length := by
            cases hme : (entries.eraseIdx i).get? m with
            | none =>
              rw [hme] at h2
              cases h2
            | some e =>
              rw [List.get?_eq_some] at hme
              exact hme.1
          apply hex m hmlt hm
          rw [List.get?_eq_get hmlt] at h2
          simpa using h2
    · rw [mapLookup_erase_other _ _ _ hk, hic k m]
      constructor
      · intro h2
        have hmne : m ≠ i := by
          intro he
          subst he
          rw [h2] at hmi
          injection hmi with hmi
          exact hk hmi
        rcases Nat.lt_or_ge m i with hm | hm
        · rw [get?_eraseIdx_lt entries i m hm]
          exact h2
        · exfalso
          have hmgt : i < m := by omega
          have h3 : ((entries.eraseIdx i).get? (m - 1)).map VEntry.id =
              some k := by
            rw [get?_eraseIdx_ge entries i (m - 1) (by omega)]
            have he : m - 1 + 1 = m := by omega
            rw [he]
            exact h2
          have hmlt : m - 1 < (entries.eraseIdx i).length := by
            cases hme : (entries.eraseIdx i).get? (m - 1) with
            | none =>
              rw [hme] at h3
              cases h3
            | some e =>
              rw [List.get?_eq_some] at hme
              exact hme.1
          apply hex (m - 1) hmlt (by omega)
          rw [List.get?_eq_get hmlt] at h3
          simpa using h3
      · intro h2
        rcases Nat.lt_or_ge m i with hm | hm
        · rw [get?_eraseIdx_lt entries i m hm] at h2
          exact h2
        · exfalso
          have hmlt : m < (entries.eraseIdx i).length := by
            cases hme : (entries.eraseIdx i).get? m with
            | none =>
              rw [hme] at h2
              cases h2
            | some e =>
              rw [List.get?_eq_some] at hme
              exact hme.1
          apply hex m hmlt hm
          rw [List.get?_eq_get hmlt] at h2
          simpa using h2

theorem vmWF_del (vm : ValidatorsMap T ε) (id : String) (h : vmWF vm) :
    vmWF (vm.Del id).1 := by
  obtain ⟨hic, hnd, hnil⟩ := h
  unfold ValidatorsMap.Del
  cases hidx : vm.index with
  | none =>
    simp only [hidx]
    exact ⟨hic, hnd, fun _ => hnil hidx⟩
  | some idx =>
    have hic' : IndexCorrect idx vm.entries := by
      rw [hidx] at hic
      simpa using hic
    cases hl : mapLookup idx id with
    | none =>
      simp only [hl]
      refine ⟨?_, hnd, ?_⟩
      · rw [hidx]
        simpa using hic'
      · intro h2
        rw [hidx] at h2
        cases h2
    | some i =>
      simp only [hl]
      exact vmWF_mk _ _ (indexCorrect_del idx vm.entries hic' hnd id i hl)
        (nodupIds_eraseIdx vm.entries i hnd)

theorem get_after_del (vm : ValidatorsMap T ε) (id : String) (h : vmWF vm) :
    ((vm.Del id).1).Get id = (⟨"", ""⟩, none, false) := by
  obtain ⟨hic, hnd, hnil⟩ := h
  unfold ValidatorsMap.Del
  cases hidx : vm.index with
  | none =>
    simp only [hidx]
    unfold ValidatorsMap.Get
    rw [hidx]
  | some idx =>
    have hic' : IndexCorrect idx vm.entries := by
      rw [hidx] at hic
      simpa using hic
    cases hl : mapLookup idx id with
    | none =>
      simp only [hl]
      unfold ValidatorsMap.Get
      rw [hidx]
      simp only [hl]
    | some i =>
      simp only [hl]
      unfold ValidatorsMap.Get
      have hno : ∀ j (hj : j < (vm.entries.eraseIdx i).length), i ≤ j →
          ((vm.entries.eraseIdx i).get ⟨j, hj⟩).id ≠ id := by
        intro j hj hij he
        have h2 : ((vm.entries.eraseIdx i).get? j).map VEntry.id = some id := by
          rw [List.get?_eq_get hj]
          simpa using he
        rw [get?_eraseIdx_ge vm.entries i j hij] at h2
        have h3 := lookup_of_entry_at idx vm.entries hic' (j + 1) id h2
        rw [hl] at h3
        injection h3 with h3
        omega
      have hnone : mapLookup
          (reindexFrom (mapErase idx id) (vm.entries.eraseIdx i) i) id = none := by
        rw [reindex_lookup_notin _ id i _ hno, mapLookup_erase_self]
      simp only [hnone]

theorem del_present (vm : ValidatorsMap T ε) (id : String) (h : vmWF vm)
    (l1 : List (VEntry T ε)) (e : VEntry T ε) (l2 : List (VEntry T ε))
    (hsplit : vm.entries = l1 ++ e :: l2) (hid : e.id = id) :
    (vm.Del id).1.entries = l1 ++ l2 ∧ (vm.Del id).2 = true := by
  obtain ⟨hic, hnd, hnil⟩ := h
  cases hidx : vm.index with
  | none =>
    exfalso
    have h2 := hnil hidx
    rw [hsplit] at h2
    simp at h2
  | some idx =>
    have hic' : IndexCorrect idx vm.entries := by
      rw [hidx] at hic
      simpa using hic
    have hm : (vm.entries.get? l1.length).map VEntry.id = some id := by
      rw [hsplit, get?_append_length]
      simpa using hid
    have hl : mapLookup idx id = some l1.length :=
      lookup_of_entry_at idx _ hic' _ _ hm
    unfold ValidatorsMap.Del
    simp only [hidx, hl]
    constructor
    · show vm.entries.eraseIdx l1.length = l1 ++ l2
      rw [hsplit, eraseIdx_append_cons]
    · trivial

theorem del_absent (vm : ValidatorsMap T ε) (id : String) (h : vmWF vm)
    (habs : ∀ e ∈ vm.entries, e.id ≠ id) : vm.Del id = (vm, false) := by
  obtain ⟨hic, _, _⟩ := h
  unfold ValidatorsMap.Del
  cases hidx : vm.index with
  | none => simp only [hidx]
  | some idx =>
    have hic' : IndexCorrect idx vm.entries := by
      rw [hidx] at hic
      simpa using hic
    have hl : mapLookup idx id = none :=
      lookup_none_of_absent idx _ hic' id habs
    simp only [hidx, hl]

theorem vmWF_empty : vmWF (⟨[], some []⟩ : ValidatorsMap T ε) := by
  refine ⟨?_, ?_, ?_⟩
  · intro k n
    constructor
    · intro h2
      cases h2
    · intro h2
      cases h2
  · simp [NodupIds]
  · intro h2
    cases h2

theorem vmWF_vmA : vmWF vmA := by
  refine ⟨?_, ?_, ?_⟩
  · intro k n
    show mapLookup [("A", 0)] k = some n ↔ _
    constructor
    · intro h2
      by_cases hk : "A" = k
      · subst hk
        rw [mapLookup, if_pos rfl] at h2
        injection h2 with h2
        subst h2
        rfl
      · rw [mapLookup, if_neg hk, mapLookup] at h2
        cases h2
    · intro h2
      cases n with
      | zero =>
        have hk : "A" = k := by
          simpa [vmA] using h2
        subst hk
        simp [mapLookup]
      | succ n =>
        simp [vmA] at h2
  · simp [vmA, NodupIds]
  · intro h2
    cases h2

/-- C7: after `Set(status, fn)`, `Get(status.ID)` returns exactly the
just-set status and predicate with `found = true`; when the identifier
already sits at position `i` of the iteration order the entry is
replaced in place at `i`, and when it is absent the new entry is
appended at the end of the order. -/
theorem set_get_roundtrip_and_position (T ε : Type) (vm : ValidatorsMap T ε)
    (s : Status) (fn : Option (T → Bool × Option ε)) (h : vmWF vm) :
    ((vm.Set s fn).Get s.id = (s, fn, true)) ∧
    (∀ i : Nat, (vm.entries.get? i).map VEntry.id = some s.id →
      (vm.Set s fn).entries = vm.entries.set i ⟨s.id, s, fn⟩) ∧
    ((∀ e ∈ vm.entries, e.id ≠ s.id) →
      (vm.Set s fn).entries = vm.entries ++ [⟨s.id, s, fn⟩]) := by
  refine ⟨set_then_get vm s fn h, ?_, ?_⟩
  · intro i hi
    have hl := lookup_of_entry_at _ _ h.1 i s.id hi
    unfold ValidatorsMap.Set
    simp only [hl]
  · intro habs
    have hl := lookup_none_of_absent _ _ h.1 s.id habs
    unfold ValidatorsMap.Set
    simp only [hl]

/-- C7 witness: on the initialised empty registry, setting label "A"
and reading it back returns the just-set pair; the entry is appended. -/
theorem set_get_roundtrip_witness :
    vmWF vmEmptyNN ∧
    (((vmEmptyNN.Set sA fnT).Get sA.id = (sA, fnT, true)) ∧
     (∀ i : Nat, (vmEmptyNN.entries.get? i).map VEntry.id = some sA.id →
       (vmEmptyNN.Set sA fnT).entries = vmEmptyNN.entries.set i ⟨sA.id, sA, fnT⟩) ∧
     ((∀ e ∈ vmEmptyNN.entries, e.id ≠ sA.id) →
       (vmEmptyNN.Set sA fnT).entries = vmEmptyNN.entries ++ [⟨sA.id, sA, fnT⟩])) :=
  ⟨vmWF_empty, set_get_roundtrip_and_position Nat Nat vmEmptyNN sA fnT vmWF_empty⟩

/-- C8: well-formedness (the index maps exactly the identifiers of the
stored entries, no duplicates, each at its unique position) holds for
the initialised empty registry and is preserved by `Set` and `Del`;
`Del` of a present identifier removes exactly that entry keeping the
relative order of the rest, `Del` of an absent identifier is a no-op,
and `Get` after `Del` of the same identifier reports not-found. -/
theorem registry_index_invariant (T ε : Type) (vm : ValidatorsMap T ε)
    (s : Status) (fn : Option (T → Bool × Option ε)) (id : String)
    (h : vmWF vm) :
    vmWF (⟨[], some []⟩ : ValidatorsMap T ε) ∧
    vmWF (vm.Set s fn) ∧
    vmWF (vm.Del id).1 ∧
    (∀ l1 e l2, vm.entries = l1 ++ e :: l2 → e.id = id →
      (vm.Del id).1.entries = l1 ++ l2 ∧ (vm.Del id).2 = true) ∧
    ((∀ e ∈ vm.entries, e.id ≠ id) → vm.Del id = (vm, false)) ∧
    ((vm.Del id).1.Get id = (⟨"", ""⟩, none, false)) :=
  ⟨vmWF_empty, vmWF_set vm s fn h, vmWF_del vm id h,
   fun l1 e l2 hs hi => del_present vm id h l1 e l2 hs hi,
   del_absent vm id h, get_after_del vm id h⟩

/-- C8 witness: the invariant facts at the one-entry registry, deleting
the present identifier "A". -/
theorem registry_index_invariant_witness :
    vmWF vmA ∧
    (vmWF (⟨[], some []⟩ : ValidatorsMap Nat Nat) ∧
     vmWF (vmA.Set sB none) ∧
     vmWF (vmA.Del "A").1 ∧
     (∀ l1 e l2, vmA.entries = l1 ++ e :: l2 → e.id = "A" →
       (vmA.Del "A").1.entries = l1 ++ l2 ∧ (vmA.Del "A").2 = true) ∧
     ((∀ e ∈ vmA.entries, e.id ≠ "A") → vmA.Del "A" = (vmA, false)) ∧
     ((vmA.Del "A").1.Get "A" = (⟨"", ""⟩, none, false))) :=
  ⟨vmWF_vmA, registry_index_invariant Nat Nat vmA sB none "A" vmWF_vmA⟩

/-! Lemmas: engine-level plumbing. -/

theorem set_index_isSome (vm : ValidatorsMap T ε) (s : Status)
    (fn : Option (T → Bool × Option ε)) :
    ∃ idx, (vm.Set s fn).index = some idx := by
  unfold ValidatorsMap.Set
  cases hl : mapLookup (vm.index.getD []) s.id with
  | none =>
    simp only [hl]
    exact ⟨_, rfl⟩
  | some i =>
    simp only [hl]
    exact ⟨_, rfl⟩

theorem del_index_isSome (vm : ValidatorsMap T ε) (id : String)
    (idx : List (String × Nat)) (hidx : vm.index = some idx) :
    ∃ idx2, (vm.Del id).1.index = some idx2 := by
  unfold ValidatorsMap.Del
  cases hl : mapLookup idx id with
  | none =>
    simp only [hidx, hl]
    exact ⟨idx, rfl⟩
  | some i =>
    simp only [hidx, hl]
    exact ⟨_, rfl⟩

theorem setValidator_validators (kc : keyChain T ε) (s : Status)
    (fn : Option (T → Bool × Option ε)) :
    (kc.SetValidator s fn).validators =
      (match kc.validators.index with
        | none => ({ entries := [], index := some [] } : ValidatorsMap T ε)
        | some _ => kc.validators).Set s fn := rfl

theorem setValidator_get (kc : keyChain T ε) (s : Status)
    (fn : Option (T → Bool × Option ε)) (h : vmWF kc.validators) :
    (kc.SetValidator s fn).GetValidator s.id = (s, fn, none) := by
  cases hidx : kc.validators.index with
  | none =>
    have hval : (kc.SetValidator s fn).validators =
        (⟨[], some []⟩ : ValidatorsMap T ε).Set s fn := by
      rw [setValidator_validators, hidx]
    have hget := set_then_get (⟨[], some []⟩ : ValidatorsMap T ε) s fn vmWF_empty
    obtain ⟨idx2, hidx2⟩ := set_index_isSome (⟨[], some []⟩ : ValidatorsMap T ε) s fn
    unfold keyChain.GetValidator
    rw [hval, hidx2]
    simp only [hget]
  | some idx =>
    have hval : (kc.SetValidator s fn).validators = kc.validators.Set s fn := by
      rw [setValidator_validators, hidx]
    have hget := set_then_get kc.validators s fn h
    obtain ⟨idx2, hidx2⟩ := set_index_isSome kc.validators s fn
    unfold keyChain.GetValidator
    rw [hval, hidx2]
    simp only [hget]

/-- C1 counterexample: a freshly constructed engine has an empty but
*present* registry, and `Validate` on it under NOT returns
`(emptyStatus, true, nil)` and under AND `(emptyStatus, false, nil)` —
not `(defaultLabel, false, nil)` as claimed. -/
theorem empty_registry_counterexample :
    NewKeyChain Nat Nat NOT = .ok (freshKC Nat Nat NOT) ∧
    (freshKC Nat Nat NOT).Validate 0 = (.empty, true, []) ∧
    (freshKC Nat Nat AND).Validate 0 = (.empty, false, []) ∧
    ((StatusRef.empty, true, ([] : List Nat)) ≠
      (StatusRef.defaultS, false, ([] : List Nat))) :=
  ⟨rfl, rfl, rfl, by decide⟩

/-- C1 amended: when the registry map is absent (nil index, the
post-Reset / zero-value state) every operator returns
`(defaultLabel, false, nil)`; when the registry is present but empty
(the freshly constructed state) OR and XOR return
`(defaultLabel, false, nil)`, while NOT returns `(emptyStatus, true,
nil)` and AND returns `(emptyStatus, false, nil)`. -/
theorem empty_registry_default_amended (T ε : Type) (data : T) :
    (∀ kc : keyChain T ε, kc.validators.index = none →
      kc.Validate data = (.defaultS, false, [])) ∧
    (∀ (m : List (String × Nat)) (c : BitwiseID),
      (⟨⟨[], some m⟩, c⟩ : keyChain T ε).Validate data =
        if c = NOT then (.empty, true, [])
        else if c = AND then (.empty, false, [])
        else (.defaultS, false, [])) := by
  constructor
  · intro kc hidx
    unfold keyChain.Validate
    rw [hidx]
  · intro m c
    unfold keyChain.Validate
    by_cases h0 : c = NOT
    · simp [h0, notLoop]
    · by_cases h1 : c = AND
      · simp [h0, h1, andLoop, NOT, AND]
      · by_cases h2 : c = OR
        · simp [h0, h1, h2, keyChain.validateOR, orLoop, accInit, accErrs,
            NOT, AND, OR]
        · by_cases h3 : c = XOR
          · simp [h0, h1, h2, h3, keyChain.validateXOR, xorLoop, accInit,
              accErrs, NOT, AND, OR, XOR]
          · simp [h0, h1, h2, h3]

/-- C1 witness: the absent-registry case at a concrete engine, and the
fresh XOR engine returning the default label. -/
theorem empty_registry_default_witness :
    (⟨⟨[], none⟩, OR⟩ : keyChain Nat Nat).validators.index = none ∧
    (⟨⟨[], none⟩, OR⟩ : keyChain Nat Nat).Validate 0 = (.defaultS, false, []) ∧
    (freshKC Nat Nat XOR).Validate 0 = (.defaultS, false, []) := by
  refine ⟨rfl, (empty_registry_default_amended Nat Nat 0).1 _ rfl, ?_⟩
  have h := (empty_registry_default_amended Nat Nat 0).2 [] XOR
  simpa [XOR, NOT, AND] using h

/-- C5 counterexample: the post-Reset engine is not observationally
equivalent to a freshly constructed one — `GetValidator` returns the
`NoValidatorsRegistered` error after `Reset` but a nil error on the
fresh engine, and `Validate` differs likewise under the default NOT
operator. -/
theorem reset_not_fresh_counterexample :
    ((freshKC Nat Nat NOT).Reset.GetValidator "a").2.2 =
      some KCErr.noValidatorExist ∧
    ((freshKC Nat Nat NOT).GetValidator "a").2.2 = none ∧
    (freshKC Nat Nat NOT).Reset.Validate 0 = (.defaultS, false, []) ∧
    (freshKC Nat Nat NOT).Validate 0 = (.empty, true, []) :=
  ⟨rfl, rfl, rfl, rfl⟩

/-- C5 amended: `Reset` always produces one fixed state — default
operator (NOT = 0) and an absent (nil) registry map.  That state is
usable but differs observably from the freshly constructed engine:
Get/Del report `NoValidatorsRegistered` and `Validate` short-circuits
to `(defaultLabel, false, nil)`; the first `SetValidator` re-initialises
the registry, after which the validators equal those of a fresh engine
receiving the same call. -/
theorem reset_state_amended (T ε : Type) (kc : keyChain T ε) (s : Status)
    (fn : Option (T → Bool × Option ε)) (id : String) (data : T) :
    kc.Reset = ⟨⟨[], none⟩, 0⟩ ∧
    kc.Reset.GetValidator id = (⟨"", ""⟩, none, some .noValidatorExist) ∧
    (kc.Reset.DelValidator id).2 = some .noValidatorExist ∧
    kc.Reset.Validate data = (.defaultS, false, []) ∧
    (kc.Reset.SetValidator s fn).validators =
      ((freshKC T ε 0).SetValidator s fn).validators :=
  ⟨rfl, rfl, rfl, rfl, rfl⟩

/-- C6 counterexample: on a freshly constructed engine, whose registry
has never held an entry, `GetValidator` and `DelValidator` do **not**
return `NoValidatorsRegistered`: they return a nil error with a silent
empty result. -/
theorem fresh_get_counterexample :
    (freshKC Nat Nat OR).GetValidator "a" = (⟨"", ""⟩, none, none) ∧
    ((freshKC Nat Nat OR).DelValidator "a").2 = none :=
  ⟨rfl, rfl⟩

/-- C6 amended: Get/Del return `NoValidatorsRegistered` exactly when
the registry map is absent (the zero-value / post-Reset state), not on
a freshly constructed engine, where they return a nil error and an
empty result; on an engine that has stored an entry, `GetValidator` of
a present identifier returns the stored status and predicate with a nil
error. -/
theorem no_validator_error_amended (T ε : Type) (kc : keyChain T ε)
    (s : Status) (fn : Option (T → Bool × Option ε)) (id : String)
    (h : vmWF kc.validators) :
    (kc.validators.index = none →
      kc.GetValidator id = (⟨"", ""⟩, none, some .noValidatorExist) ∧
      (kc.DelValidator id).2 = some .noValidatorExist) ∧
    (∀ c : BitwiseID, (freshKC T ε c).GetValidator id = (⟨"", ""⟩, none, none)) ∧
    ((kc.SetValidator s fn).GetValidator s.id = (s, fn, none)) := by
  refine ⟨?_, ?_, setValidator_get kc s fn h⟩
  · intro hidx
    unfold keyChain.GetValidator keyChain.DelValidator
    rw [hidx]
    exact ⟨rfl, rfl⟩
  · intro c
    rfl

/-- C6 witness: the amended statement at a concrete fresh engine with
label "A". -/
theorem no_validator_error_witness :
    vmWF (freshKC Nat Nat OR).validators ∧
    (((freshKC Nat Nat OR).validators.index = none →
       (freshKC Nat Nat OR).GetValidator "x" =
         (⟨"", ""⟩, none, some .noValidatorExist) ∧
       ((freshKC Nat Nat OR).DelValidator "x").2 = some .noValidatorExist) ∧
     (∀ c : BitwiseID,
       (freshKC Nat Nat c).GetValidator "x" = (⟨"", ""⟩, none, none)) ∧
     (((freshKC Nat Nat OR).SetValidator sA fnT).GetValidator sA.id =
       (sA, fnT, none))) :=
  ⟨vmWF_empty,
    no_validator_error_amended Nat Nat (freshKC Nat Nat OR) sA fnT "x" vmWF_empty⟩

/-- C10: after a successful `SetValidator` the registry map is present;
while it stays present, `DelValidator` keeps it present (even after the
last entry is removed) and Get/Del never return
`NoValidatorsRegistered`; in an emptied-by-deletion state `GetValidator`
of any absent identifier returns the zero Status, a nil predicate and a
nil error — observably different from the post-Reset (absent-map)
state. -/
theorem emptied_by_deletion_vs_reset (T ε : Type) (kc : keyChain T ε)
    (s : Status) (fn : Option (T → Bool × Option ε)) (id : String) :
    ((kc.SetValidator s fn).validators.index ≠ none) ∧
    (∀ kc' : keyChain T ε, kc'.validators.index ≠ none →
      ((kc'.DelValidator id).1.validators.index ≠ none) ∧
      ((kc'.GetValidator id).2.2 = none) ∧
      ((kc'.DelValidator id).2 = none)) ∧
    (∀ (kc' : keyChain T ε) (idx : List (String × Nat)),
      kc'.validators.index = some idx → mapLookup idx id = none →
      kc'.GetValidator id = (⟨"", ""⟩, none, none)) := by
  refine ⟨?_, ?_, ?_⟩
  · rw [setValidator_validators]
    cases hidx : kc.validators.index with
    | none =>
      obtain ⟨idx2, hidx2⟩ := set_index_isSome (⟨[], some []⟩ : ValidatorsMap T ε) s fn
      rw [hidx2]
      intro hcontra
      cases hcontra
    | some idx =>
      obtain ⟨idx2, hidx2⟩ := set_index_isSome kc.validators s fn
      rw [hidx2]
      intro hcontra
      cases hcontra
  · intro kc' hne
    cases hidx : kc'.validators.index with
    | none => exact absurd hidx hne
    | some idx =>
      obtain ⟨idx2, hidx2⟩ := del_index_isSome kc'.validators id idx hidx
      refine ⟨?_, ?_, ?_⟩
      · unfold keyChain.DelValidator
        rw [hidx]
        simp only [hidx2]
        intro hcontra
        cases hcontra
      · unfold keyChain.GetValidator
        rw [hidx]
      · unfold keyChain.DelValidator
        rw [hidx]
  · intro kc' idx hidx hl
    unfold keyChain.GetValidator ValidatorsMap.Get
    rw [hidx]
    simp only [hl]

theorem kcDelEx_index_eq : kcDelEx.validators.index = some [] := by
  show some (reindexFrom (mapErase [("A", 0)] "A") ([] : List (VEntry Nat Nat)) 0)
    = some []
  rw [reindexFrom]
  simp [mapErase]

/-- C10 witness: set one validator, delete it again; the index map is
still present and `GetValidator` returns the silent empty result. -/
theorem emptied_by_deletion_witness :
    kcDelEx.validators.index = some [] ∧
    mapLookup [] "A" = none ∧
    kcDelEx.validators.entries = [] ∧
    kcDelEx.GetValidator "A" = (⟨"", ""⟩, none, none) :=
  ⟨kcDelEx_index_eq, rfl, rfl,
    (emptied_by_deletion_vs_reset Nat Nat kcDelEx sA fnT "A").2.2 kcDelEx []
      kcDelEx_index_eq rfl⟩

end Keycheck
